import Mathlib

/-!
Verification development for the `pkg/ringallreduce` package of the
`sanderblue/algorithms` repository.

The Go source (`ring_all_reduce.go`) implements a ring all-reduce over `P`
processes.  Each process (`Node`) owns a vector of `P * ChunkSize` float64
values, split into `P` chunks, and runs `Node.Run`: a reduce-scatter phase of
`P-1` steps followed by an allgather phase of `P-1` steps.  In each step the
process copies one chunk into a `Msg`, sends it on its `Out` channel, then
blocks on its `In` channel, checks the received `ChunkIdx` tag (printing a
warning on mismatch and continuing), and either element-wise adds the payload
into a chunk (reduce-scatter) or overwrites a chunk with it (allgather).
`RingAllReduce.Execute(procs, chunkSize)` builds `procs` channels of capacity
2, wires process `i` with `In = channels[i]`, `Out = channels[(i+1) % procs]`
(so process `i` receives from process `(i-1+procs) % procs`), seeds process
`i`'s vector with the constant `i+1`, runs all processes concurrently, waits,
and returns them.

Embedding notes.
* `float64` values are modelled by an arbitrary element type `α` with an `Add`
  instance (the concrete runs below use `ℚ`, exact for the integer-valued data
  of the repository's tests).  Slices become `List α`; channels are identified
  by their index in the `channels` array built by `Execute`.
* Every process performs exactly one send followed by one receive per step,
  and the channels are FIFO, so the `s`-th message received by process `i` is
  the `s`-th message sent by process `(i-1+P) % P`, computed from the sender's
  buffer after its first `s` steps.  The network therefore behaves as a
  deterministic synchronous-round system: `rsRound`/`agRound` below apply one
  global step, which yields exactly the per-process data evolution of the Go
  program.  The scheduling side (that every interleaving of the concurrent
  processes over the capacity-2 channels completes, so the deterministic
  outcome is reached) is handled separately by the transition system in the
  `RingSched` namespace.
* Go's `%` on `int` agrees with `Nat.mod` on the nonneg operands that occur
  here; index expressions such as `Rank - s + P` are rearranged into the
  subtraction-safe form `Rank + P - s` (equal whenever `s ≤ Rank + P`, which
  holds for every step index `s < P` of a run).
-/

namespace RingAllReduce

/-- Go struct `Msg`: `ChunkIdx` tags which chunk the payload contains. -/
structure Msg (α : Type) where
  ChunkIdx : ℕ
  Data : List α
deriving DecidableEq

/-- Go struct `Node`: one participant of the ring.  `In`/`Out` hold the index
of the receive/send channel in the `channels` array built by `Execute`. -/
structure Node (α : Type) where
  Rank : ℕ
  P : ℕ
  ChunkSize : ℕ
  Data : List α
  In : ℕ
  Out : ℕ
deriving DecidableEq

instance {α : Type} : Inhabited (Node α) := ⟨⟨0, 0, 0, [], 0, 0⟩⟩

variable {α : Type}

/-- The copy of `data[start : start+csz]` (Go `copy(msgData, proc.Data[startSend : startSend+proc.ChunkSize])`). -/
def chunkSlice (data : List α) (start csz : ℕ) : List α :=
  (data.drop start).take csz

/-- The reduce-scatter receive update: element-wise addition of the payload
into the chunk starting at `start` (Go `proc.Data[startRecv+i] += received.Data[i]`
for `i < ChunkSize`). -/
def addChunk [Add α] (data : List α) (start csz : ℕ) (payload : List α) : List α :=
  data.take start ++
    List.zipWith (fun a b => a + b) (chunkSlice data start csz) payload ++
    data.drop (start + csz)

/-- The allgather receive update: overwrite the chunk starting at `start` with
the payload (Go `copy(proc.Data[startRecv : startRecv+proc.ChunkSize], received.Data)`;
`copy` transfers `min` of the two lengths). -/
def setChunk (data : List α) (start csz : ℕ) (payload : List α) : List α :=
  data.take start ++ payload.take (min csz payload.length) ++
    data.drop (start + min csz payload.length)

/-- Reduce-scatter step `s`, send half: `sendIdx := (Rank - s + P) % P`
(nonneg-rearranged), chunk copied into a tagged message. -/
def rsSend (s : ℕ) (n : Node α) : Msg α :=
  let sendIdx := (n.Rank + n.P - s) % n.P
  { ChunkIdx := sendIdx, Data := chunkSlice n.Data (sendIdx * n.ChunkSize) n.ChunkSize }

/-- Reduce-scatter step `s`, expected tag: `recvIdx := (Rank - s - 1 + P) % P`. -/
def rsRecvIdx (s : ℕ) (n : Node α) : ℕ := (n.Rank + n.P - s - 1) % n.P

/-- The reduce-scatter consistency check of `Run`: the received tag matches
`recvIdx`.  On failure the Go code only prints a warning; the state update
`rsRecv` below is performed regardless of this check's outcome. -/
def rsTagOk (s : ℕ) (n : Node α) (m : Msg α) : Prop := m.ChunkIdx = rsRecvIdx s n

instance (s : ℕ) (n : Node α) (m : Msg α) : Decidable (rsTagOk s n m) := by
  unfold rsTagOk; infer_instance

/-- Reduce-scatter step `s`, receive half: the payload is element-wise added
into the `recvIdx` chunk.  Note that the Go code performs this unconditionally,
whether or not the tag check passed (the check only prints). -/
def rsRecv [Add α] (s : ℕ) (n : Node α) (m : Msg α) : Node α :=
  { n with Data := addChunk n.Data (rsRecvIdx s n * n.ChunkSize) n.ChunkSize m.Data }

/-- Allgather step `s`, send half: `sendIdx := (Rank + 1 + s) % P`. -/
def agSend (s : ℕ) (n : Node α) : Msg α :=
  let sendIdx := (n.Rank + 1 + s) % n.P
  { ChunkIdx := sendIdx, Data := chunkSlice n.Data (sendIdx * n.ChunkSize) n.ChunkSize }

/-- Allgather step `s`, expected tag: `recvIdx := (Rank + 2 + s) % P`. -/
def agRecvIdx (s : ℕ) (n : Node α) : ℕ := (n.Rank + 2 + s) % n.P

/-- The allgather consistency check of `Run`; as in the reduce-scatter phase a
failure only prints, and the overwrite `agRecv` happens regardless. -/
def agTagOk (s : ℕ) (n : Node α) (m : Msg α) : Prop := m.ChunkIdx = agRecvIdx s n

instance (s : ℕ) (n : Node α) (m : Msg α) : Decidable (agTagOk s n m) := by
  unfold agTagOk; infer_instance

/-- Allgather step `s`, receive half: the `recvIdx` chunk is overwritten with
the payload, unconditionally. -/
def agRecv (s : ℕ) (n : Node α) (m : Msg α) : Node α :=
  { n with Data := setChunk n.Data (agRecvIdx s n * n.ChunkSize) n.ChunkSize m.Data }

/-- The rank a given position receives from: with `Out = channels[(i+1) % p]`
and `In = channels[i]`, process `i`'s messages come from process `(i-1+p) % p`. -/
def leftOf (p i : ℕ) : ℕ := (i + p - 1) % p

/-- One global reduce-scatter round: every process sends (from its current
buffer), then every process receives the message of its left neighbour. -/
def rsRound [Add α] (s : ℕ) (nodes : List (Node α)) : List (Node α) :=
  (List.range nodes.length).map (fun i =>
    rsRecv s (nodes.getD i default) (rsSend s (nodes.getD (leftOf nodes.length i) default)))

/-- One global allgather round. -/
def agRound (s : ℕ) (nodes : List (Node α)) : List (Node α) :=
  (List.range nodes.length).map (fun i =>
    agRecv s (nodes.getD i default) (agSend s (nodes.getD (leftOf nodes.length i) default)))

/-- The first `t` reduce-scatter rounds, `s = 0, 1, ..., t-1`. -/
def iterRS [Add α] (t : ℕ) (nodes : List (Node α)) : List (Node α) :=
  (List.range t).foldl (fun ns s => rsRound s ns) nodes

/-- The reduce-scatter phase of `Run`: `for s := 0; s < P-1; s++`. -/
def reduceScatter [Add α] (p : ℕ) (nodes : List (Node α)) : List (Node α) :=
  iterRS (p - 1) nodes

/-- The first `t` allgather rounds. -/
def iterAG (t : ℕ) (nodes : List (Node α)) : List (Node α) :=
  (List.range t).foldl (fun ns s => agRound s ns) nodes

/-- The allgather phase of `Run`: `for s := 0; s < P-1; s++`. -/
def allGather (p : ℕ) (nodes : List (Node α)) : List (Node α) :=
  iterAG (p - 1) nodes

/-- Both phases of `Node.Run`, executed by all ring members. -/
def runRing [Add α] (p : ℕ) (nodes : List (Node α)) : List (Node α) :=
  allGather p (reduceScatter p nodes)

/-- A data buffer whose element `j` is `f j` (the seeding loops of `Execute`
and of the tests fill buffers this way). -/
def seedData (total : ℕ) (f : ℕ → α) : List α :=
  (List.range total).map f

/-- The `Node` literal built by `Execute` (and by the distinct-chunks test):
`Rank = i`, `In = channels[i]`, `Out = channels[(i+1) % p]`. -/
def mkNode (p csz i : ℕ) (data : List α) : Node α :=
  ⟨i, p, csz, data, i, (i + 1) % p⟩

/-- The ring of `p` processes with `ChunkSize = csz` where process `i`'s
buffer holds `v i j` at position `j` (length `p * csz`). -/
def mkRing (p csz : ℕ) (v : ℕ → ℕ → α) : List (Node α) :=
  (List.range p).map (fun i => mkNode p csz i (seedData (p * csz) (v i)))

/-- `RingAllReduce.Execute(procs, chunkSize)`: seeds process `i` with the
constant `i+1`, runs all processes to completion and returns their final
states.  The Go function performs no argument validation and its return type
`[]*Node` carries no error value; its only other effect is console printing,
which does not affect the returned states. -/
def Execute (procs chunkSize : ℕ) : List (Node ℚ) :=
  runRing procs (mkRing procs chunkSize (fun i _ => ((i + 1 : ℕ) : ℚ)))

/-- Element `j` of participant `i`'s buffer, when both exist. -/
def elemAt (nodes : List (Node α)) (i j : ℕ) : Option α :=
  nodes[i]?.bind (fun n => n.Data[j]?)

/-- The initial data of the `TestRingAllReduce_CustomData_DistinctChunks`
test: element `j` of process `i` is `1000*(j/csz) + 10*(j%csz) + i`.  The
test data are integer-valued and the protocol only adds them, so float64
arithmetic on them is exact and is modelled by `ℤ`. -/
def distinctV (csz : ℕ) (i j : ℕ) : ℤ :=
  ((1000 * (j / csz) + 10 * (j % csz) + i : ℕ) : ℤ)

/-- The full run of the distinct-chunks test configuration. -/
def distinctRun (p csz : ℕ) : List (Node ℤ) :=
  runRing p (mkRing p csz (distinctV csz))

/-! ### A pure functional model of the data evolution

`stepRSFun`/`stepAGFun` restate one global round as a transformation of the
"buffer contents" function `f : rank → position → value`; the round lemmas
below prove that `rsRound`/`agRound` on a `mkRing` configuration compute
exactly these transformations, confining all list manipulation to one lemma
per phase.  The closed forms of the iterated transformations are then proved
by pure modular arithmetic. -/

/-- Effect of reduce-scatter round `s` on the buffer-contents function: rank
`i` adds, at each position `j` of its chunk `(i - s - 1 + p) % p`, the
corresponding element of the chunk `((i-1) - s + p) % p` sent by its left
neighbour `(i - 1 + p) % p`. -/
def stepRSFun [Add α] (p csz s : ℕ) (f : ℕ → ℕ → α) : ℕ → ℕ → α := fun i j =>
  let rc := (i + p - s - 1) % p
  let ln := (i + p - 1) % p
  let sIdx := (ln + p - s) % p
  if rc * csz ≤ j ∧ j < rc * csz + csz then f i j + f ln (sIdx * csz + (j - rc * csz))
  else f i j

/-- Effect of allgather round `s`: rank `i` overwrites its chunk
`(i + 2 + s) % p` with the chunk `((i-1) + 1 + s) % p` sent by its left
neighbour — the mismatch between these two indices is the content of the
consistency warning printed by the Go code for `p ≥ 3`. -/
def stepAGFun (p csz s : ℕ) (f : ℕ → ℕ → α) : ℕ → ℕ → α := fun i j =>
  let rc := (i + 2 + s) % p
  let ln := (i + p - 1) % p
  let sIdx := (ln + 1 + s) % p
  if rc * csz ≤ j ∧ j < rc * csz + csz then f ln (sIdx * csz + (j - rc * csz))
  else f i j

/-- Buffer contents after the first `t` reduce-scatter rounds. -/
def rsFun [Add α] (p csz : ℕ) (v : ℕ → ℕ → α) (t : ℕ) : ℕ → ℕ → α :=
  (List.range t).foldl (fun f s => stepRSFun p csz s f) v

/-- Buffer contents after the full reduce-scatter phase and then the first
`t` allgather rounds. -/
def agFun [Add α] (p csz : ℕ) (v : ℕ → ℕ → α) (t : ℕ) : ℕ → ℕ → α :=
  (List.range t).foldl (fun f s => stepAGFun p csz s f) (rsFun p csz v (p - 1))

/-- The accumulation order of the ring: `rotAcc p f c m` is the partial sum of
the contributions `f` to a chunk owned by rank `c` after it has visited the
`m` ranks following `c` on the ring, each new visit adding its own local value
on the left:
`f ((c+m) % p) + (f ((c+m-1) % p) + (... + (f ((c+1) % p) + f (c % p))))`.
This is the exact operational order of `Run`'s reduce-scatter additions
(`Data[recv+i] += payload[i]` puts the local value on the left), which visits
ranks in rotation order starting from the chunk's owner — not in ascending
rank order. -/
def rotAcc [Add α] (p : ℕ) (f : ℕ → α) (c : ℕ) : ℕ → α
  | 0 => f (c % p)
  | m + 1 => f ((c + m + 1) % p) + rotAcc p f c m

/-- The fully reduced value of a chunk owned by rank `c`: all `p`
contributions accumulated in rotation order. -/
def fullSum [Add α] (p : ℕ) (f : ℕ → α) (c : ℕ) : α := rotAcc p f c (p - 1)

/-- The chunk whose fully reduced value ends up in slot `x` of rank `i` after
the whole run: `(2*i + 2 - x) mod p` (for a correct allgather this would be
`x` itself; the Go `recvIdx = (Rank+2+s) % P` bug shifts it). -/
def wIdx (p i x : ℕ) : ℕ := (2 * i + 2 + p - x) % p

end RingAllReduce

/-! ### Scheduling model for deadlock freedom

The data-flow embedding above fixes the outcome; this transition system
covers the scheduling.  It abstracts each process of `Execute(procs, …)` to
the number `σ i` of channel operations it has completed.  `Run` performs
`2*(P-1)` steps of exactly "one send, then one receive", i.e. `4*(P-1)`
operations alternating send (even count) / receive (odd count).  Process `i`
sends on channel `(i+1) % p` (read by process `(i+1) % p`) and receives from
channel `i` (fed by process `(i-1+p) % p`); each channel has capacity 2
(`make(chan Msg, 2)`), so a send blocks iff the channel already holds two
undelivered messages and a receive blocks iff it holds none.  Payload
contents are irrelevant to blocking and are dropped. -/

namespace RingSched

/-- Number of sends among the first `o` operations of a process. -/
def sendsOf (o : ℕ) : ℕ := (o + 1) / 2

/-- Number of receives among the first `o` operations of a process. -/
def recvsOf (o : ℕ) : ℕ := o / 2

/-- Total channel operations `Run` performs per process: `2*(P-1)` steps of
one send and one receive each. -/
def totalOps (p : ℕ) : ℕ := 4 * (p - 1)

/-- Process `i` can perform its next operation: it is not finished, and the
operation's channel is not full (send) resp. not empty (receive).  The
occupancy of channel `(i+1) % p` is `sendsOf (σ i) - recvsOf (σ ((i+1) % p))`
and that of channel `i` is `sendsOf (σ ((i+p-1) % p)) - recvsOf (σ i)`. -/
def enabled (p : ℕ) (σ : ℕ → ℕ) (i : ℕ) : Prop :=
  i < p ∧ σ i < totalOps p ∧
    (if σ i % 2 = 0 then sendsOf (σ i) < recvsOf (σ ((i + 1) % p)) + 2
     else recvsOf (σ i) < sendsOf (σ ((i + p - 1) % p)))

/-- Process `i` performs one operation. -/
def bump (σ : ℕ → ℕ) (i : ℕ) : ℕ → ℕ := fun j => if j = i then σ i + 1 else σ j

/-- States reachable from the start of the concurrent run under an arbitrary
scheduler. -/
inductive Reach (p : ℕ) : (ℕ → ℕ) → Prop
  | init : Reach p (fun _ => 0)
  | step : ∀ {σ : ℕ → ℕ} {i : ℕ}, Reach p σ → enabled p σ i → Reach p (bump σ i)

/-- The structural invariant of every reachable state: no process exceeds its
program, no channel has delivered more than was sent, and no channel holds
more than its capacity of 2. -/
def Inv (p : ℕ) (σ : ℕ → ℕ) : Prop :=
  ∀ i, i < p → σ i ≤ totalOps p ∧ recvsOf (σ i) ≤ sendsOf (σ ((i + p - 1) % p)) ∧
    sendsOf (σ i) ≤ recvsOf (σ ((i + 1) % p)) + 2

end RingSched

namespace RingAllReduce

variable {α : Type}

/-! ### List-level lemmas: the chunk operations on seeded buffers -/

theorem seedData_length (total : ℕ) (f : ℕ → α) : (seedData total f).length = total := by
  simp [seedData]

theorem seedData_getElem? (total : ℕ) (f : ℕ → α) (j : ℕ) :
    (seedData total f)[j]? = if j < total then some (f j) else none := by
  by_cases h : j < total
  · simp [seedData, List.getElem?_map, List.getElem?_range h, h]
  · rw [if_neg h, List.getElem?_eq_none_iff.mpr (by rw [seedData_length]; omega)]

theorem chunkSlice_seed (total start csz : ℕ) (f : ℕ → α) (h : start + csz ≤ total) :
    chunkSlice (seedData total f) start csz = seedData csz (fun k => f (start + k)) := by
  apply List.ext_getElem?
  intro n
  by_cases hn : n < csz
  · rw [chunkSlice, List.getElem?_take_of_lt hn, List.getElem?_drop]
    rw [seedData_getElem?, seedData_getElem?, if_pos hn, if_pos (by omega)]
  · rw [List.getElem?_eq_none_iff.mpr (by simp [chunkSlice, seedData_length]; omega),
      List.getElem?_eq_none_iff.mpr (by rw [seedData_length]; omega)]

theorem addChunk_seed [Add α] (total start csz : ℕ) (f q : ℕ → α) (h : start + csz ≤ total) :
    addChunk (seedData total f) start csz (seedData csz q)
      = seedData total
          (fun j => if start ≤ j ∧ j < start + csz then f j + q (j - start) else f j) := by
  have hlt : ((seedData total f).take start).length = start := by
    simp [seedData_length]; omega
  have hz : (List.zipWith (fun a b => a + b)
      (chunkSlice (seedData total f) start csz) (seedData csz q)).length = csz := by
    rw [chunkSlice_seed total start csz f h]
    simp [seedData_length]
  apply List.ext_getElem?
  intro n
  rcases Nat.lt_or_ge n start with h1 | h1
  · have L : (addChunk (seedData total f) start csz (seedData csz q))[n]? = some (f n) := by
      rw [addChunk, List.getElem?_append_left (by rw [List.length_append, hlt, hz]; omega),
        List.getElem?_append_left (by rw [hlt]; omega), List.getElem?_take_of_lt h1,
        seedData_getElem?, if_pos (by omega)]
    rw [L, seedData_getElem?, if_pos (by omega), if_neg (by omega)]
  · rcases Nat.lt_or_ge n (start + csz) with h2 | h2
    · have L : (addChunk (seedData total f) start csz (seedData csz q))[n]?
          = some (f n + q (n - start)) := by
        rw [addChunk, List.getElem?_append_left (by rw [List.length_append, hlt, hz]; omega),
          List.getElem?_append_right (by rw [hlt]; omega), hlt,
          List.getElem?_zipWith', chunkSlice_seed total start csz f h,
          seedData_getElem?, seedData_getElem?, if_pos (by omega), if_pos (by omega)]
        have e : start + (n - start) = n := by omega
        simp only [Option.map_some', Option.some_bind, e]
      rw [L, seedData_getElem?, if_pos (by omega), if_pos (by omega)]
    · have L : (addChunk (seedData total f) start csz (seedData csz q))[n]?
          = (seedData total f)[n]? := by
        rw [addChunk, List.getElem?_append_right (by rw [List.length_append, hlt, hz]; omega),
          List.length_append, hlt, hz, List.getElem?_drop]
        congr 1
        omega
      rw [L, seedData_getElem?, seedData_getElem?]
      by_cases h3 : n < total
      · rw [if_pos h3, if_pos h3, if_neg (by omega)]
      · rw [if_neg h3, if_neg h3]

theorem setChunk_seed (total start csz : ℕ) (f q : ℕ → α) (h : start + csz ≤ total) :
    setChunk (seedData total f) start csz (seedData csz q)
      = seedData total
          (fun j => if start ≤ j ∧ j < start + csz then q (j - start) else f j) := by
  have hmin : min csz (seedData csz q).length = csz := by
    rw [seedData_length, Nat.min_self]
  have hlt : ((seedData total f).take start).length = start := by
    simp [seedData_length]; omega
  have htk : ((seedData csz q).take (min csz (seedData csz q).length)).length = csz := by
    rw [hmin]
    simp [seedData_length]
  apply List.ext_getElem?
  intro n
  rcases Nat.lt_or_ge n start with h1 | h1
  · have L : (setChunk (seedData total f) start csz (seedData csz q))[n]? = some (f n) := by
      rw [setChunk, List.getElem?_append_left (by rw [List.length_append, hlt, htk]; omega),
        List.getElem?_append_left (by rw [hlt]; omega), List.getElem?_take_of_lt h1,
        seedData_getElem?, if_pos (by omega)]
    rw [L, seedData_getElem?, if_pos (by omega), if_neg (by omega)]
  · rcases Nat.lt_or_ge n (start + csz) with h2 | h2
    · have L : (setChunk (seedData total f) start csz (seedData csz q))[n]?
          = some (q (n - start)) := by
        rw [setChunk, List.getElem?_append_left (by rw [List.length_append, hlt, htk]; omega),
          List.getElem?_append_right (by rw [hlt]; omega), hlt, hmin,
          List.getElem?_take_of_lt (by omega), seedData_getElem?, if_pos (by omega)]
      rw [L, seedData_getElem?, if_pos (by omega), if_pos (by omega)]
    · have L : (setChunk (seedData total f) start csz (seedData csz q))[n]?
          = (seedData total f)[n]? := by
        rw [setChunk, List.getElem?_append_right (by rw [List.length_append, hlt, htk]; omega),
          List.length_append, hlt, htk, hmin, List.getElem?_drop]
        congr 1
        omega
      rw [L, seedData_getElem?, seedData_getElem?]
      by_cases h3 : n < total
      · rw [if_pos h3, if_pos h3, if_neg (by omega)]
      · rw [if_neg h3, if_neg h3]

/-! ### The ring configuration and the round lemmas -/

theorem mkRing_length (p csz : ℕ) (v : ℕ → ℕ → α) : (mkRing p csz v).length = p := by
  simp [mkRing]

theorem mkRing_getElem? (p csz : ℕ) (v : ℕ → ℕ → α) (i : ℕ) (hi : i < p) :
    (mkRing p csz v)[i]? = some (mkNode p csz i (seedData (p * csz) (v i))) := by
  rw [mkRing, List.getElem?_map, List.getElem?_range hi, Option.map_some']

theorem mkRing_getD (p csz : ℕ) (v : ℕ → ℕ → α) (i : ℕ) (hi : i < p) :
    (mkRing p csz v).getD i default = mkNode p csz i (seedData (p * csz) (v i)) := by
  rw [List.getD, List.get?_eq_getElem?, mkRing_getElem? p csz v i hi, Option.getD_some]

theorem rsRound_mkRing [Add α] (p csz s : ℕ) (hp : 0 < p) (v : ℕ → ℕ → α) :
    rsRound s (mkRing p csz v) = mkRing p csz (stepRSFun p csz s v) := by
  rw [rsRound, mkRing_length]
  conv_rhs => rw [mkRing]
  apply List.map_congr_left
  intro i hi
  rw [List.mem_range] at hi
  have hln : leftOf p i < p := Nat.mod_lt _ hp
  rw [mkRing_getD p csz v i hi, mkRing_getD p csz v (leftOf p i) hln]
  have hrc : (i + p - s - 1) % p < p := Nat.mod_lt _ hp
  have hsi : (leftOf p i + p - s) % p < p := Nat.mod_lt _ hp
  simp only [rsRecv, rsSend, rsRecvIdx, mkNode]
  rw [chunkSlice_seed (p * csz) (((leftOf p i + p - s) % p) * csz) csz (v (leftOf p i))
      (by calc ((leftOf p i + p - s) % p) * csz + csz = ((leftOf p i + p - s) % p + 1) * csz := by ring
            _ ≤ p * csz := Nat.mul_le_mul_right csz hsi),
    addChunk_seed (p * csz) (((i + p - s - 1) % p) * csz) csz (v i) _
      (by calc ((i + p - s - 1) % p) * csz + csz = ((i + p - s - 1) % p + 1) * csz := by ring
            _ ≤ p * csz := Nat.mul_le_mul_right csz hrc)]
  congr 1

theorem agRound_mkRing (p csz s : ℕ) (hp : 0 < p) (v : ℕ → ℕ → α) :
    agRound s (mkRing p csz v) = mkRing p csz (stepAGFun p csz s v) := by
  rw [agRound, mkRing_length]
  conv_rhs => rw [mkRing]
  apply List.map_congr_left
  intro i hi
  rw [List.mem_range] at hi
  have hln : leftOf p i < p := Nat.mod_lt _ hp
  rw [mkRing_getD p csz v i hi, mkRing_getD p csz v (leftOf p i) hln]
  have hrc : (i + 2 + s) % p < p := Nat.mod_lt _ hp
  have hsi : (leftOf p i + 1 + s) % p < p := Nat.mod_lt _ hp
  simp only [agRecv, agSend, agRecvIdx, mkNode]
  rw [chunkSlice_seed (p * csz) (((leftOf p i + 1 + s) % p) * csz) csz (v (leftOf p i))
      (by calc ((leftOf p i + 1 + s) % p) * csz + csz = ((leftOf p i + 1 + s) % p + 1) * csz := by ring
            _ ≤ p * csz := Nat.mul_le_mul_right csz hsi),
    setChunk_seed (p * csz) (((i + 2 + s) % p) * csz) csz (v i) _
      (by calc ((i + 2 + s) % p) * csz + csz = ((i + 2 + s) % p + 1) * csz := by ring
            _ ≤ p * csz := Nat.mul_le_mul_right csz hrc)]
  congr 1

theorem iterRS_succ [Add α] (t : ℕ) (nodes : List (Node α)) :
    iterRS (t + 1) nodes = rsRound t (iterRS t nodes) := by
  simp only [iterRS, List.range_succ, List.foldl_append, List.foldl_cons, List.foldl_nil]

theorem iterAG_succ (t : ℕ) (nodes : List (Node α)) :
    iterAG (t + 1) nodes = agRound t (iterAG t nodes) := by
  simp only [iterAG, List.range_succ, List.foldl_append, List.foldl_cons, List.foldl_nil]

theorem rsFun_succ [Add α] (p csz : ℕ) (v : ℕ → ℕ → α) (t : ℕ) :
    rsFun p csz v (t + 1) = stepRSFun p csz t (rsFun p csz v t) := by
  simp only [rsFun, List.range_succ, List.foldl_append, List.foldl_cons, List.foldl_nil]

theorem agFun_succ [Add α] (p csz : ℕ) (v : ℕ → ℕ → α) (t : ℕ) :
    agFun p csz v (t + 1) = stepAGFun p csz t (agFun p csz v t) := by
  simp only [agFun, List.range_succ, List.foldl_append, List.foldl_cons, List.foldl_nil]

theorem iterRS_mkRing [Add α] (p csz : ℕ) (hp : 0 < p) (v : ℕ → ℕ → α) (t : ℕ) :
    iterRS t (mkRing p csz v) = mkRing p csz (rsFun p csz v t) := by
  induction t with
  | zero => rfl
  | succ t ih =>
      rw [iterRS_succ, ih, rsRound_mkRing p csz t hp, rsFun_succ]

theorem iterAG_mkRing (p csz : ℕ) (hp : 0 < p) (g : ℕ → ℕ → α) (t : ℕ) :
    iterAG t (mkRing p csz g)
      = mkRing p csz ((List.range t).foldl (fun f s => stepAGFun p csz s f) g) := by
  induction t with
  | zero => rfl
  | succ t ih =>
      rw [iterAG_succ, ih, agRound_mkRing p csz t hp, List.range_succ, List.foldl_append,
        List.foldl_cons, List.foldl_nil]

theorem runRing_mkRing [Add α] (p csz : ℕ) (hp : 0 < p) (v : ℕ → ℕ → α) :
    runRing p (mkRing p csz v) = mkRing p csz (agFun p csz v (p - 1)) := by
  rw [runRing, reduceScatter, iterRS_mkRing p csz hp v (p - 1), allGather,
    iterAG_mkRing p csz hp (rsFun p csz v (p - 1)) (p - 1), agFun]

theorem elemAt_mkRing (p csz : ℕ) (g : ℕ → ℕ → α) (i j : ℕ) (hi : i < p)
    (hj : j < p * csz) : elemAt (mkRing p csz g) i j = some (g i j) := by
  rw [elemAt, mkRing_getElem? p csz g i hi, Option.some_bind, mkNode,
    seedData_getElem?, if_pos hj]

/-! ### Modular index arithmetic

All ring indices are of the form `e % p` with `e < 4*p`; `mod4` turns such a
reduction into a case split that `omega` can finish. -/

theorem mod4 (p x : ℕ) (hp : 0 < p) (h : x < 4 * p) :
    x % p = if 3 * p ≤ x then x - 3 * p else if 2 * p ≤ x then x - 2 * p
      else if p ≤ x then x - p else x := by
  rcases Nat.lt_or_ge x p with h1 | h1
  · rw [Nat.mod_eq_of_lt h1, if_neg (by omega), if_neg (by omega), if_neg (by omega)]
  · rcases Nat.lt_or_ge x (2 * p) with h2 | h2
    · rw [Nat.mod_eq_sub_mod h1, Nat.mod_eq_of_lt (by omega), if_neg (by omega),
        if_neg (by omega), if_pos (by omega)]
    · rcases Nat.lt_or_ge x (3 * p) with h3 | h3
      · rw [Nat.mod_eq_sub_mod h1, Nat.mod_eq_sub_mod (by omega), Nat.mod_eq_of_lt (by omega),
          if_neg (by omega), if_pos (by omega)]
        omega
      · rw [Nat.mod_eq_sub_mod h1, Nat.mod_eq_sub_mod (by omega), Nat.mod_eq_sub_mod (by omega),
          Nat.mod_eq_of_lt (by omega), if_pos (by omega)]
        omega

/-- A position `c * csz + k` with `k < csz` lies in the chunk window starting
at `rc * csz` exactly when `rc = c`. -/
theorem window_iff (csz rc c k : ℕ) (hk : k < csz) :
    (rc * csz ≤ c * csz + k ∧ c * csz + k < rc * csz + csz) ↔ rc = c := by
  constructor
  · rintro ⟨h1, h2⟩
    by_contra hne
    rcases Nat.lt_or_ge rc c with hlt | hge
    · have hm : (rc + 1) * csz ≤ c * csz := Nat.mul_le_mul_right csz hlt
      rw [add_mul, one_mul] at hm
      linarith
    · have hgt : c < rc := lt_of_le_of_ne hge (fun e => hne e.symm)
      have hm : (c + 1) * csz ≤ rc * csz := Nat.mul_le_mul_right csz hgt
      rw [add_mul, one_mul] at hm
      linarith
  · rintro rfl
    exact ⟨Nat.le_add_right _ _, Nat.add_lt_add_left hk _⟩

theorem ln_eq (p i : ℕ) (hp : 0 < p) (hi : i < p) :
    (i + p - 1) % p = if i = 0 then p - 1 else i - 1 := by
  rw [mod4 p (i + p - 1) hp (by omega)]
  split_ifs <;> omega

theorem modRS_zero (p i c : ℕ) (hp : 0 < p) (hi : i < p) (hc : c < p) :
    (i + p - c) % p = 0 ↔ i = c := by
  rw [mod4 p (i + p - c) hp (by omega)]
  split_ifs <;> omega

theorem modRS_rc_iff (p i c t : ℕ) (hp : 0 < p) (hi : i < p) (hc : c < p) (ht : t + 1 < p) :
    (i + p - t - 1) % p = c ↔ (i + p - c) % p = t + 1 := by
  rw [mod4 p (i + p - t - 1) hp (by omega), mod4 p (i + p - c) hp (by omega)]
  split_ifs <;> omega

theorem modRS_send_eq (p i t : ℕ) (hp : 0 < p) (hi : i < p) (ht : t + 1 < p) :
    ((i + p - 1) % p + p - t) % p = (i + p - t - 1) % p := by
  rw [ln_eq p i hp hi]
  by_cases h0 : i = 0
  · rw [if_pos h0, h0]
    rw [mod4 p (p - 1 + p - t) hp (by omega), mod4 p (0 + p - t - 1) hp (by omega)]
    split_ifs <;> omega
  · rw [if_neg h0]
    rw [mod4 p (i - 1 + p - t) hp (by omega), mod4 p (i + p - t - 1) hp (by omega)]
    split_ifs <;> omega

theorem modRS_left_eq (p i c t : ℕ) (hp : 0 < p) (hi : i < p) (hc : c < p) (ht : t + 1 < p)
    (hm : (i + p - c) % p = t + 1) : ((i + p - 1) % p + p - c) % p = t := by
  rw [mod4 p (i + p - c) hp (by omega)] at hm
  rw [ln_eq p i hp hi]
  by_cases h0 : i = 0
  · rw [if_pos h0]
    rw [h0] at hm
    rw [mod4 p (p - 1 + p - c) hp (by omega)]
    split_ifs at hm ⊢ <;> omega
  · rw [if_neg h0]
    rw [mod4 p (i - 1 + p - c) hp (by omega)]
    split_ifs at hm ⊢ <;> omega

theorem modRS_back_eq (p i c t : ℕ) (hp : 0 < p) (hi : i < p) (hc : c < p) (ht : t + 1 < p)
    (hm : (i + p - c) % p = t + 1) : (c + t + 1) % p = i := by
  rw [mod4 p (i + p - c) hp (by omega)] at hm
  rw [mod4 p (c + t + 1) hp (by omega)]
  split_ifs at hm ⊢ <;> omega

/-! ### Closed form of the reduce-scatter phase

After `t ≤ p-1` rounds, rank `i`'s chunk `c` holds the rotation-order partial
sum over the `(i - c) mod p` most recent ring predecessors (itself included)
once the chunk has reached it, and is untouched otherwise. -/

theorem rsFun_closed [Add α] (p csz : ℕ) (hp : 0 < p) (v : ℕ → ℕ → α) :
    ∀ t, t ≤ p - 1 → ∀ i c k, i < p → c < p → k < csz →
      rsFun p csz v t i (c * csz + k)
        = if (i + p - c) % p ≤ t
          then rotAcc p (fun r => v r (c * csz + k)) c ((i + p - c) % p)
          else v i (c * csz + k) := by
  intro t
  induction t with
  | zero =>
      intro _ i c k hi hc hk
      by_cases h0 : (i + p - c) % p = 0
      · rw [show rsFun p csz v 0 = v from rfl, if_pos (by omega), h0]
        have hic : i = c := (modRS_zero p i c hp hi hc).mp h0
        rw [show rotAcc p (fun r => v r (c * csz + k)) c 0
              = v (c % p) (c * csz + k) from rfl, Nat.mod_eq_of_lt hc, hic]
      · rw [show rsFun p csz v 0 = v from rfl, if_neg (by omega)]
  | succ t ih =>
      intro ht i c k hi hc hk
      have htp : t + 1 < p := by omega
      have hln : (i + p - 1) % p < p := Nat.mod_lt _ hp
      rw [rsFun_succ]
      simp only [stepRSFun]
      by_cases hcc : (i + p - t - 1) % p = c
      · rw [if_pos ((window_iff csz _ c k hk).mpr hcc)]
        have hm : (i + p - c) % p = t + 1 := (modRS_rc_iff p i c t hp hi hc htp).mp hcc
        rw [modRS_send_eq p i t hp hi htp, hcc]
        rw [show c * csz + (c * csz + k - c * csz) = c * csz + k from by omega]
        rw [ih (by omega) i c k hi hc hk, if_neg (by rw [hm]; omega)]
        rw [ih (by omega) ((i + p - 1) % p) c k hln hc hk,
          modRS_left_eq p i c t hp hi hc htp hm, if_pos (le_refl t)]
        rw [hm, if_pos (le_refl (t + 1))]
        rw [show rotAcc p (fun r => v r (c * csz + k)) c (t + 1)
              = v ((c + t + 1) % p) (c * csz + k)
                  + rotAcc p (fun r => v r (c * csz + k)) c t from rfl]
        rw [modRS_back_eq p i c t hp hi hc htp hm]
      · rw [if_neg (fun hw => hcc ((window_iff csz _ c k hk).mp hw))]
        have hne : (i + p - c) % p ≠ t + 1 :=
          fun h => hcc ((modRS_rc_iff p i c t hp hi hc htp).mpr h)
        rw [ih (by omega) i c k hi hc hk]
        by_cases hbr : (i + p - c) % p ≤ t
        · rw [if_pos hbr, if_pos (by omega)]
        · rw [if_neg hbr, if_neg (by omega)]

/-! ### Modular index arithmetic for the allgather phase -/

theorem modAG_rc_iff (p i x t : ℕ) (hp : 0 < p) (hi : i < p) (hx : x < p) (ht : t < p) :
    (i + 2 + t) % p = x ↔ (x + 2 * p - i - 2) % p = t := by
  rw [mod4 p (i + 2 + t) hp (by omega), mod4 p (x + 2 * p - i - 2) hp (by omega)]
  split_ifs <;> omega

theorem modAG_prev_eq (p i t : ℕ) (hp : 0 < p) (hi : i < p) (ht1 : 1 ≤ t) (ht : t < p) :
    (((i + p - 1) % p + 1 + t) % p + 2 * p - (i + p - 1) % p - 2) % p = t - 1 := by
  rw [ln_eq p i hp hi]
  by_cases h0 : i = 0
  · rw [if_pos h0]
    rw [mod4 p (p - 1 + 1 + t) hp (by omega)]
    split_ifs <;> (rw [mod4 p _ hp (by omega)]; split_ifs <;> omega)
  · rw [if_neg h0]
    rw [mod4 p (i - 1 + 1 + t) hp (by omega)]
    split_ifs <;> (rw [mod4 p _ hp (by omega)]; split_ifs <;> omega)

theorem modAG_chunk_eq (p i t : ℕ) (hp : 0 < p) (hi : i < p) (ht1 : 1 ≤ t) (ht : t < p) :
    ((i + p - 1) % p + p - (t - 1)) % p = (i + p - t) % p := by
  rw [ln_eq p i hp hi]
  by_cases h0 : i = 0
  · rw [if_pos h0, h0]
    rw [mod4 p (p - 1 + p - (t - 1)) hp (by omega), mod4 p (0 + p - t) hp (by omega)]
    split_ifs <;> omega
  · rw [if_neg h0]
    rw [mod4 p (i - 1 + p - (t - 1)) hp (by omega), mod4 p (i + p - t) hp (by omega)]
    split_ifs <;> omega

theorem modAG_szero_eq (p i : ℕ) (hp : 0 < p) (hi : i < p) :
    ((i + p - 1) % p + 1) % p = i := by
  rw [Nat.mod_add_mod, show i + p - 1 + 1 = i + p from by omega, Nat.add_mod_right,
    Nat.mod_eq_of_lt hi]

theorem modAG_mzero_eq (p i : ℕ) (hp : 0 < p) (hi : i < p) :
    ((i + p - 1) % p + p - i) % p = p - 1 := by
  rw [ln_eq p i hp hi]
  by_cases h0 : i = 0
  · rw [if_pos h0, h0]
    rw [mod4 p (p - 1 + p - 0) hp (by omega)]
    split_ifs <;> omega
  · rw [if_neg h0]
    rw [mod4 p (i - 1 + p - i) hp (by omega)]
    split_ifs <;> omega

theorem modAG_wrap_eq (p i : ℕ) (hp : 0 < p) (hi : i < p) : (i + p) % p = i := by
  rw [Nat.add_mod_right, Nat.mod_eq_of_lt hi]

theorem modFinal_eq (p i x : ℕ) (hp : 0 < p) (hi : i < p) (hx : x < p) :
    (i + p - (x + 2 * p - i - 2) % p) % p = (2 * i + 2 + p - x) % p := by
  rw [mod4 p (x + 2 * p - i - 2) hp (by omega)]
  split_ifs <;> (rw [mod4 p _ hp (by omega), mod4 p _ hp (by omega)]; split_ifs <;> omega)

theorem modAG_unhit_eq (p i x : ℕ) (hp : 0 < p) (hi : i < p) (hx : x < p)
    (hrB : (x + 2 * p - i - 2) % p = p - 1) : (i + p - x) % p = p - 1 := by
  rw [mod4 p (x + 2 * p - i - 2) hp (by omega)] at hrB
  rw [mod4 p (i + p - x) hp (by omega)]
  split_ifs at hrB ⊢ <;> omega

theorem modAG_unhit_w (p i x : ℕ) (hp : 0 < p) (hi : i < p) (hx : x < p)
    (hrB : (x + 2 * p - i - 2) % p = p - 1) : (2 * i + 2 + p - x) % p = x := by
  rw [mod4 p (x + 2 * p - i - 2) hp (by omega)] at hrB
  rw [mod4 p (2 * i + 2 + p - x) hp (by omega)]
  split_ifs at hrB ⊢ <;> omega

/-! ### Closed form of the allgather phase

After `t ≤ p-1` allgather rounds following the full reduce-scatter phase,
slot `x` of rank `i` has been overwritten (in round `(x + 2p - i - 2) mod p`,
when that round has already happened) with the fully reduced value of chunk
`(i + p - ((x + 2p - i - 2) mod p)) mod p` — not of chunk `x`, which is the
effect of the `recvIdx = (Rank + 2 + s) % P` mis-indexing. -/

theorem agFun_closed [Add α] (p csz : ℕ) (hp : 0 < p) (v : ℕ → ℕ → α) :
    ∀ t, t ≤ p - 1 → ∀ i x k, i < p → x < p → k < csz →
      agFun p csz v t i (x * csz + k)
        = if (x + 2 * p - i - 2) % p < t
          then fullSum p
                 (fun r => v r ((i + p - (x + 2 * p - i - 2) % p) % p * csz + k))
                 ((i + p - (x + 2 * p - i - 2) % p) % p)
          else rsFun p csz v (p - 1) i (x * csz + k) := by
  intro t
  induction t with
  | zero =>
      intro _ i x k hi hx hk
      rw [if_neg (Nat.not_lt_zero _)]
      rfl
  | succ t ih =>
      intro ht i x k hi hx hk
      have htp : t + 1 < p := by omega
      have hln : (i + p - 1) % p < p := Nat.mod_lt _ hp
      have hsi : ((i + p - 1) % p + 1 + t) % p < p := Nat.mod_lt _ hp
      rw [agFun_succ]
      simp only [stepAGFun]
      by_cases hcc : (i + 2 + t) % p = x
      · rw [if_pos ((window_iff csz _ x k hk).mpr hcc)]
        have hrB : (x + 2 * p - i - 2) % p = t :=
          (modAG_rc_iff p i x t hp hi hx (by omega)).mp hcc
        rw [hcc, show x * csz + k - x * csz = k from by omega]
        rcases Nat.eq_zero_or_pos t with ht0 | ht1
        · subst ht0
          rw [ih (by omega) ((i + p - 1) % p) (((i + p - 1) % p + 1 + 0) % p) k hln hsi hk,
            if_neg (Nat.not_lt_zero _)]
          simp only [Nat.add_zero]
          rw [modAG_szero_eq p i hp hi]
          rw [rsFun_closed p csz hp v (p - 1) (le_refl _) ((i + p - 1) % p) i k hln hi hk,
            if_pos (by have := Nat.mod_lt ((i + p - 1) % p + p - i) hp; omega)]
          rw [modAG_mzero_eq p i hp hi, hrB, if_pos (by omega), Nat.sub_zero,
            modAG_wrap_eq p i hp hi]
          rfl
        · rw [ih (by omega) ((i + p - 1) % p) (((i + p - 1) % p + 1 + t) % p) k hln hsi hk,
            modAG_prev_eq p i t hp hi ht1 (by omega), if_pos (by omega)]
          rw [modAG_chunk_eq p i t hp hi ht1 (by omega)]
          rw [hrB, if_pos (by omega)]
      · rw [if_neg (fun hw => hcc ((window_iff csz _ x k hk).mp hw))]
        have hne : (x + 2 * p - i - 2) % p ≠ t :=
          fun h => hcc ((modAG_rc_iff p i x t hp hi hx (by omega)).mpr h)
        rw [ih (by omega) i x k hi hx hk]
        by_cases hbr : (x + 2 * p - i - 2) % p < t
        · rw [if_pos hbr, if_pos (by omega)]
        · rw [if_neg hbr, if_neg (by omega)]

/-! ### Full-run characterization -/

/-- The value at slot `x`, offset `k`, of rank `i` after the complete run:
the fully reduced value (rotation-order sum over all ranks) of chunk
`wIdx p i x = (2*i + 2 - x) mod p` — rather than of chunk `x` itself. -/
theorem runRing_elemAt [Add α] (p csz : ℕ) (hp : 0 < p) (v : ℕ → ℕ → α) (i x k : ℕ)
    (hi : i < p) (hx : x < p) (hk : k < csz) :
    elemAt (runRing p (mkRing p csz v)) i (x * csz + k)
      = some (fullSum p (fun r => v r (wIdx p i x * csz + k)) (wIdx p i x)) := by
  have hj : x * csz + k < p * csz := by
    calc x * csz + k < x * csz + csz := Nat.add_lt_add_left hk _
      _ = (x + 1) * csz := by ring
      _ ≤ p * csz := Nat.mul_le_mul_right csz hx
  rw [runRing_mkRing p csz hp v, elemAt_mkRing p csz _ i _ hi hj]
  congr 1
  rw [agFun_closed p csz hp v (p - 1) (le_refl _) i x k hi hx hk]
  by_cases hbr : (x + 2 * p - i - 2) % p < p - 1
  · rw [if_pos hbr]
    simp only [wIdx]
    rw [modFinal_eq p i x hp hi hx]
  · have hrB : (x + 2 * p - i - 2) % p = p - 1 := by
      have := Nat.mod_lt (x + 2 * p - i - 2) hp
      omega
    rw [if_neg hbr,
      rsFun_closed p csz hp v (p - 1) (le_refl _) i x k hi hx hk,
      if_pos (by have := Nat.mod_lt (i + p - x) hp; omega),
      modAG_unhit_eq p i x hp hi hx hrB]
    simp only [wIdx]
    rw [modAG_unhit_w p i x hp hi hx hrB]
    rfl

end RingAllReduce

namespace RingAllReduce

/-! ### Rotation sums over a commutative monoid -/

theorem rotAcc_eq_sum {M : Type} [AddCommMonoid M] (p : ℕ) (f : ℕ → M) (c m : ℕ) :
    rotAcc p f c m = ∑ j ∈ Finset.range (m + 1), f ((c + j) % p) := by
  induction m with
  | zero => simp [rotAcc]
  | succ m ih =>
      rw [show rotAcc p f c (m + 1) = f ((c + m + 1) % p) + rotAcc p f c m from rfl, ih]
      conv_rhs => rw [Finset.sum_range_succ]
      exact add_comm _ _

theorem mod_shift_inj (p c a b : ℕ) (hp : 0 < p) (hc : c < p) (ha : a < p) (hb : b < p)
    (h : (c + a) % p = (c + b) % p) : a = b := by
  rw [mod4 p (c + a) hp (by omega), mod4 p (c + b) hp (by omega)] at h
  split_ifs at h <;> omega

/-- Over a commutative monoid, the rotation-order full accumulation of a chunk
owned by rank `c` is the sum of all `p` contributions. -/
theorem rotAcc_full_sum {M : Type} [AddCommMonoid M] (p : ℕ) (hp : 0 < p) (f : ℕ → M)
    (c : ℕ) (hc : c < p) : fullSum p f c = ∑ r ∈ Finset.range p, f r := by
  rw [fullSum, rotAcc_eq_sum, show p - 1 + 1 = p from by omega]
  rw [← Fin.sum_univ_eq_sum_range (fun j => f ((c + j) % p)) p,
    ← Fin.sum_univ_eq_sum_range f p]
  apply Fintype.sum_bijective (fun j : Fin p => (⟨(c + j.val) % p, Nat.mod_lt _ hp⟩ : Fin p))
  · apply Finite.injective_iff_bijective.mp
    intro a b hab
    exact Fin.ext (mod_shift_inj p c a.val b.val hp hc a.isLt b.isLt (congrArg Fin.val hab))
  · intro x
    rfl

theorem gauss_nat (p : ℕ) : (∑ r ∈ Finset.range p, (r + 1)) = p * (p + 1) / 2 := by
  induction p with
  | zero => simp
  | succ p ih =>
      rw [Finset.sum_range_succ, ih]
      obtain ⟨q, hq⟩ := Nat.even_mul_succ_self p
      have e1 : p * (p + 1) / 2 = q := by rw [hq]; omega
      have e2 : (p + 1) * (p + 1 + 1) = q + p + 1 + (q + p + 1) := by
        have h3 : (p + 1) * (p + 1 + 1) = p * (p + 1) + 2 * (p + 1) := by ring
        rw [h3, hq]
        ring
      rw [e1, e2]
      omega

theorem gauss_cast (p : ℕ) :
    (∑ r ∈ Finset.range p, ((r + 1 : ℕ) : ℚ)) = ((p * (p + 1) / 2 : ℕ) : ℚ) := by
  rw [← Nat.cast_sum, gauss_nat]

/-- The designated chunk of rank `i` is the one whose rotation reaches `i`
last: `(i + p - ((i+1) mod p)) mod p = p - 1`. -/
theorem modRS_desig (p i : ℕ) (hp : 0 < p) (hi : i < p) :
    (i + p - (i + 1) % p) % p = p - 1 := by
  rw [mod4 p (i + 1) hp (by omega)]
  split_ifs <;> (rw [mod4 p _ hp (by omega)]; split_ifs <;> omega)

end RingAllReduce

namespace RingSched

/-! ### Deadlock freedom of the scheduling model -/

theorem inv_init (p : ℕ) : Inv p (fun _ => 0) := by
  intro i hi
  refine ⟨?_, ?_, ?_⟩ <;> simp [sendsOf, recvsOf, totalOps]

theorem inv_step (p : ℕ) (σ : ℕ → ℕ) (i : ℕ) (hInv : Inv p σ) (hen : enabled p σ i) :
    Inv p (bump σ i) := by
  obtain ⟨hip, hlt, hcond⟩ := hen
  intro j hj
  obtain ⟨hA, hB, hC⟩ := hInv j hj
  obtain ⟨hA2, hB2, hC2⟩ := hInv i hip
  unfold bump
  by_cases hpar : σ i % 2 = 0
  · rw [if_pos hpar] at hcond
    refine ⟨?_, ?_, ?_⟩
    · split_ifs with h1
      · unfold totalOps at *; omega
      · exact hA
    · split_ifs with h1 h2 h2
      · subst h1; rw [h2] at hB; unfold sendsOf recvsOf at *; omega
      · subst h1; unfold sendsOf recvsOf at *; omega
      · rw [h2] at hB; unfold sendsOf recvsOf at *; omega
      · exact hB
    · split_ifs with h1 h2 h2
      · subst h1; rw [h2] at hC; unfold sendsOf recvsOf at *; omega
      · subst h1; unfold sendsOf recvsOf at *; omega
      · rw [h2] at hC; unfold sendsOf recvsOf at *; omega
      · exact hC
  · rw [if_neg hpar] at hcond
    refine ⟨?_, ?_, ?_⟩
    · split_ifs with h1
      · unfold totalOps at *; omega
      · exact hA
    · split_ifs with h1 h2 h2
      · subst h1; rw [h2] at hB; unfold sendsOf recvsOf at *; omega
      · subst h1; unfold sendsOf recvsOf at *; omega
      · rw [h2] at hB; unfold sendsOf recvsOf at *; omega
      · exact hB
    · split_ifs with h1 h2 h2
      · subst h1; rw [h2] at hC; unfold sendsOf recvsOf at *; omega
      · subst h1; unfold sendsOf recvsOf at *; omega
      · rw [h2] at hC; unfold sendsOf recvsOf at *; omega
      · exact hC

theorem reach_inv (p : ℕ) (σ : ℕ → ℕ) (h : Reach p σ) : Inv p σ := by
  induction h with
  | init => exact inv_init p
  | step hr hen ih => exact inv_step p _ _ ih hen

theorem progress (p : ℕ) (σ : ℕ → ℕ) (hInv : Inv p σ) :
    ∀ n i, i < p → σ i < totalOps p → sendsOf (σ i) ≤ n → ∃ j, enabled p σ j := by
  intro n
  induction n with
  | zero =>
      intro i hip hlt hs
      refine ⟨i, hip, hlt, ?_⟩
      by_cases hpar : σ i % 2 = 0
      · rw [if_pos hpar]
        unfold sendsOf recvsOf at *
        omega
      · rw [if_neg hpar]
        exfalso
        unfold sendsOf at hs
        omega
  | succ n ihn =>
      intro i hip hlt hs
      by_cases hen : enabled p σ i
      · exact ⟨i, hen⟩
      · unfold enabled at hen
        push_neg at hen
        have hcond := hen hip hlt
        obtain ⟨hA, hB, hC⟩ := hInv i hip
        by_cases hpar : σ i % 2 = 0
        · rw [if_pos hpar] at hcond
          have hj : (i + 1) % p < p := Nat.mod_lt _ (by omega)
          obtain ⟨hA2, hB2, hC2⟩ := hInv ((i + 1) % p) hj
          apply ihn ((i + 1) % p) hj
          · unfold sendsOf recvsOf totalOps at *
            omega
          · unfold sendsOf recvsOf at *
            omega
        · rw [if_neg hpar] at hcond
          have hj : (i + p - 1) % p < p := Nat.mod_lt _ (by omega)
          obtain ⟨hA2, hB2, hC2⟩ := hInv ((i + p - 1) % p) hj
          apply ihn ((i + p - 1) % p) hj
          · unfold sendsOf recvsOf totalOps at *
            omega
          · unfold sendsOf recvsOf at *
            omega

end RingSched

namespace RingAllReduce

/-! ### The claims -/

/-- Claim C1 (uniform input law): for every `P ≥ 1` and `chunkSize ≥ 1`,
`Execute(P, chunkSize)` — which seeds participant `i`'s vector with the
constant `i+1` — returns `P` participants, and every element of every
participant's final `Data` vector equals `P*(P+1)/2`. -/
theorem uniform_input_law (p csz i j : ℕ) (hp : 1 ≤ p) (hcs : 1 ≤ csz) (hi : i < p)
    (hj : j < p * csz) :
    (Execute p csz).length = p ∧ elemAt (Execute p csz) i j = some ((p * (p + 1) / 2 : ℕ) : ℚ) := by
  have hp0 : 0 < p := hp
  constructor
  · simp only [Execute]
    rw [runRing_mkRing p csz hp0, mkRing_length]
  · have hx : j / csz < p := (Nat.div_lt_iff_lt_mul (by omega)).mpr hj
    have hk : j % csz < csz := Nat.mod_lt _ (by omega)
    have hjj : j = j / csz * csz + j % csz := by
      rw [mul_comm]
      exact (Nat.div_add_mod j csz).symm
    obtain ⟨x, k, hx2, hk2, rfl⟩ : ∃ x k, x < p ∧ k < csz ∧ j = x * csz + k :=
      ⟨j / csz, j % csz, hx, hk, hjj⟩
    simp only [Execute]
    rw [runRing_elemAt p csz hp0 _ i x k hi hx2 hk2]
    congr 1
    have hw : wIdx p i x < p := Nat.mod_lt _ hp0
    rw [rotAcc_full_sum p hp0 _ (wIdx p i x) hw]
    exact gauss_cast p

theorem uniform_input_law_check :
    (1 ≤ 2 ∧ 1 ≤ 1 ∧ 0 < 2 ∧ 0 < 2 * 1) ∧
      ((Execute 2 1).length = 2 ∧ elemAt (Execute 2 1) 0 0 = some ((2 * (2 + 1) / 2 : ℕ) : ℚ)) :=
  ⟨by decide, uniform_input_law 2 1 0 0 (by decide) (by decide) (by decide) (by decide)⟩

/-- Claim C2 (consistency-violation handling): the claim says a `ChunkIdx`
mismatch aborts the whole run and propagates a consistency error; in the code
the check only prints and `Run` continues, applying the mismatched payload.
This theorem exhibits the very messages of the real `P = 3` run at allgather
step 0: rank 2 sends chunk 0 while rank 0 expects chunk 2 (`agTagOk` is
false), and `agRecv` nevertheless overwrites slot 2 with the payload; no
error value exists anywhere in the types of `Run` or `Execute`. -/
theorem consistency_check_only_prints :
    ¬ agTagOk 0 (mkNode 3 1 0 ([10, 20, 30] : List ℚ)) (agSend 0 (mkNode 3 1 2 [70, 80, 90]))
      ∧ agRecv 0 (mkNode 3 1 0 ([10, 20, 30] : List ℚ)) (agSend 0 (mkNode 3 1 2 [70, 80, 90]))
        = mkNode 3 1 0 [10, 20, 70] := by
  refine ⟨by decide, by decide⟩

/-- Claim C3, counterexample: at the invalid configuration `P = 0`,
`Execute` detects nothing and returns an ordinary (empty) result — no
configuration error is surfaced (its return type carries no error at all). -/
theorem config_invalid_counterexample : Execute 0 1 = [] := rfl

/-- Claim C3, amended: `Execute` performs no validation of its arguments: for
`P = 0` it returns an empty participant sequence normally, and for
`chunkSize = 0` it runs the full protocol over empty chunks and returns `P`
participants with empty vectors; no configuration error is ever reported. -/
theorem config_no_validation (p cs : ℕ) (h : p = 0 ∨ cs = 0) :
    (Execute p cs).length = p ∧
      ∀ i, i < p → ∃ n, (Execute p cs)[i]? = some n ∧ n.Data = ([] : List ℚ) := by
  rcases h with rfl | rfl
  · exact ⟨rfl, fun i hi => absurd hi (by omega)⟩
  · by_cases hp : p = 0
    · subst hp
      exact ⟨rfl, fun i hi => absurd hi (by omega)⟩
    · have hp0 : 0 < p := by omega
      simp only [Execute]
      rw [runRing_mkRing p 0 hp0]
      refine ⟨mkRing_length p 0 _, fun i hi => ⟨_, mkRing_getElem? p 0 _ i hi, ?_⟩⟩
      simp [mkNode, seedData]

theorem config_no_validation_check :
    (2 = 0 ∨ 0 = 0) ∧
      ((Execute 2 0).length = 2 ∧
        ∀ i, i < 2 → ∃ n, (Execute 2 0)[i]? = some n ∧ n.Data = ([] : List ℚ)) :=
  ⟨Or.inr rfl, config_no_validation 2 0 (Or.inr rfl)⟩

/-- Claim C4 (designated-chunk lemma): for every `P ≥ 1`, `chunkSize ≥ 1` and
arbitrary initial vectors, after the `P-1` reduce-scatter steps the chunk at
index `D = (rank+1) mod P` of each participant equals the elementwise
accumulation of all `P` participants' original values at that chunk, in the
rotation order of the ring starting from the chunk's owner (`rotAcc`), not in
ascending rank order. -/
theorem designated_chunk_lemma {β : Type} [Add β] (p csz i k : ℕ) (v : ℕ → ℕ → β)
    (hp : 1 ≤ p) (hcs : 1 ≤ csz) (hi : i < p) (hk : k < csz) :
    elemAt (reduceScatter p (mkRing p csz v)) i ((i + 1) % p * csz + k)
      = some (rotAcc p (fun r => v r ((i + 1) % p * csz + k)) ((i + 1) % p) (p - 1)) := by
  have hp0 : 0 < p := hp
  have hD : (i + 1) % p < p := Nat.mod_lt _ hp0
  have hj : (i + 1) % p * csz + k < p * csz := by
    calc (i + 1) % p * csz + k < (i + 1) % p * csz + csz := Nat.add_lt_add_left hk _
      _ = ((i + 1) % p + 1) * csz := by ring
      _ ≤ p * csz := Nat.mul_le_mul_right csz hD
  rw [reduceScatter, iterRS_mkRing p csz hp0 v (p - 1), elemAt_mkRing p csz _ i _ hi hj]
  congr 1
  rw [rsFun_closed p csz hp0 v (p - 1) (le_refl _) i ((i + 1) % p) k hi hD hk,
    modRS_desig p i hp0 hi, if_pos (le_refl _)]

theorem designated_chunk_lemma_check :
    (1 ≤ 2 ∧ 1 ≤ 1 ∧ 0 < 2 ∧ 0 < 1) ∧
      elemAt (reduceScatter 2 (mkRing 2 1 (fun r _ => (r : ℚ)))) 0 ((0 + 1) % 2 * 1 + 0)
        = some (rotAcc 2 (fun r => (fun r _ => (r : ℚ)) r ((0 + 1) % 2 * 1 + 0))
            ((0 + 1) % 2) (2 - 1)) :=
  ⟨by decide, designated_chunk_lemma 2 1 0 0 (fun r _ => (r : ℚ))
    (by decide) (by decide) (by decide) (by decide)⟩

/-- Claim C5 (distinct-chunk law): with the distinct-chunks seeding
`1000*c + 10*k + i` of the repository's own test, at `P = 3`, `chunkSize = 1`
the final element 0 of rank 0 is `6003`, whereas the claim (and the test)
require `P*(1000*c + 10*k) + P*(P-1)/2 = 3` — the allgather mis-indexing
places the reduced chunks in the wrong slots. -/
theorem distinct_chunk_law_violated :
    elemAt (distinctRun 3 1) 0 0 = some 6003
      ∧ elemAt (distinctRun 3 1) 0 0
          ≠ some (((3 * (1000 * 0 + 10 * 0) + 3 * (3 - 1) / 2 : ℕ) : ℤ)) := by
  refine ⟨by decide, by decide⟩

/-- Claim C6 (convergence): at `P = 3`, `chunkSize = 1` with the
distinct-chunks seeding, ranks 0 and 1 finish with different vectors already
at element 0 (`6003` versus `3003`) — the participants' final vectors are not
pairwise identical. -/
theorem convergence_violated :
    elemAt (distinctRun 3 1) 0 0 ≠ elemAt (distinctRun 3 1) 1 0 := by
  decide

/-- Claim C7 (degenerate case `P = 1`): both phases execute zero steps
(`reduceScatter` and `allGather` are the identity), so the run returns every
participant's vector unchanged. -/
theorem degenerate_single_process {β : Type} [Add β] (csz : ℕ) (hcs : 1 ≤ csz)
    (nodes : List (Node β)) :
    reduceScatter 1 nodes = nodes ∧ allGather 1 nodes = nodes ∧ runRing 1 nodes = nodes :=
  ⟨rfl, rfl, rfl⟩

theorem degenerate_single_process_check :
    1 ≤ 1 ∧
      (reduceScatter 1 [mkNode 1 1 0 ([5] : List ℚ)] = [mkNode 1 1 0 [5]]
        ∧ allGather 1 [mkNode 1 1 0 ([5] : List ℚ)] = [mkNode 1 1 0 [5]]
        ∧ runRing 1 [mkNode 1 1 0 ([5] : List ℚ)] = [mkNode 1 1 0 [5]]) :=
  ⟨le_refl 1, degenerate_single_process 1 (le_refl 1) [mkNode 1 1 0 [5]]⟩

/-- Claim C8 (frame and size invariant): running the protocol changes only
the contents of each participant's `Data` buffer: `Rank`, `P`, `ChunkSize`
and the `In`/`Out` channel references are unchanged, and the length of `Data`
stays exactly `P * chunkSize`. -/
theorem run_frame_invariant {β : Type} [Add β] (p csz i : ℕ) (v : ℕ → ℕ → β)
    (hp : 1 ≤ p) (hcs : 1 ≤ csz) (hi : i < p) :
    ∃ n0 n1 : Node β,
      (mkRing p csz v)[i]? = some n0 ∧ (runRing p (mkRing p csz v))[i]? = some n1
        ∧ n1.Rank = n0.Rank ∧ n1.P = n0.P ∧ n1.ChunkSize = n0.ChunkSize
        ∧ n1.In = n0.In ∧ n1.Out = n0.Out
        ∧ n1.Data.length = n0.Data.length ∧ n1.Data.length = p * csz := by
  have hp0 : 0 < p := hp
  refine ⟨mkNode p csz i (seedData (p * csz) (v i)),
    mkNode p csz i (seedData (p * csz) (agFun p csz v (p - 1) i)),
    mkRing_getElem? p csz v i hi, ?_, rfl, rfl, rfl, rfl, rfl, ?_, ?_⟩
  · rw [runRing_mkRing p csz hp0 v]
    exact mkRing_getElem? p csz _ i hi
  · show (seedData (p * csz) _).length = (seedData (p * csz) _).length
    rw [seedData_length, seedData_length]
  · show (seedData (p * csz) _).length = p * csz
    exact seedData_length _ _

theorem run_frame_invariant_check :
    (1 ≤ 2 ∧ 1 ≤ 1 ∧ 0 < 2) ∧
      (∃ n0 n1 : Node ℚ,
        (mkRing 2 1 (fun r _ => (r : ℚ)))[0]? = some n0
          ∧ (runRing 2 (mkRing 2 1 (fun r _ => (r : ℚ))))[0]? = some n1
          ∧ n1.Rank = n0.Rank ∧ n1.P = n0.P ∧ n1.ChunkSize = n0.ChunkSize
          ∧ n1.In = n0.In ∧ n1.Out = n0.Out
          ∧ n1.Data.length = n0.Data.length ∧ n1.Data.length = 2 * 1) :=
  ⟨by decide, run_frame_invariant 2 1 0 (fun r _ => (r : ℚ)) (by decide) (by decide) (by decide)⟩

/-- Claim C10 (implicit edge case): `Execute(0, chunkSize)` performs no
validation, spawns no participant, and returns the empty sequence normally —
no error is reported (none can be: the return type has no error component). -/
theorem execute_zero_procs (cs : ℕ) : Execute 0 cs = [] := rfl

end RingAllReduce

namespace RingSched

/-- Claim C9 (deadlock freedom): in the scheduling model of the run — one
operation counter per process, send/receive alternation, capacity-2 channels
wired in the ring of `Execute` — every state reachable under an arbitrary
scheduler either has an enabled process or is the final state in which every
process has completed all `4*(P-1)` operations of both phases.  Together with
the bound `σ i ≤ totalOps p` (each step strictly increases a bounded sum,
so no run is infinite), every interleaving completes both phases: the run
never deadlocks. -/
theorem run_deadlock_free (p : ℕ) (σ : ℕ → ℕ) (hp : 1 ≤ p) (h : Reach p σ) :
    (∀ i, i < p → σ i ≤ totalOps p) ∧
      ((∃ i, enabled p σ i) ∨ ∀ i, i < p → σ i = totalOps p) := by
  have hInv := reach_inv p σ h
  refine ⟨fun i hi => (hInv i hi).1, ?_⟩
  by_cases hdone : ∀ i, i < p → σ i = totalOps p
  · exact Or.inr hdone
  · push_neg at hdone
    obtain ⟨i, hip, hne⟩ := hdone
    have hlt : σ i < totalOps p := by
      have := (hInv i hip).1
      omega
    exact Or.inl (progress p σ hInv (sendsOf (σ i)) i hip hlt (le_refl _))

theorem run_deadlock_free_check :
    1 ≤ 2 ∧
      ((∀ i, i < 2 → (fun _ => 0 : ℕ → ℕ) i ≤ totalOps 2) ∧
        ((∃ i, enabled 2 (fun _ => 0) i) ∨ ∀ i, i < 2 → (fun _ => 0 : ℕ → ℕ) i = totalOps 2)) :=
  ⟨by omega, run_deadlock_free 2 (fun _ => 0) (by omega) Reach.init⟩

end RingSched
